import Mathlib

/-!
Verification of the ELD trip-planning core (trucking_app/route_api).

The Python source is shallowly embedded: segment dictionaries become the
`Segment` structure, the four mutable HOS counters of
`TripViewSet.apply_hos_regulations` become the `HOSState` structure, and the
while-loops become fuel-indexed or well-founded recursions over `ℚ`
(exact arithmetic in place of Python floats).  Every definition below is
translated from the source in `views.py` / `hos_utils.py`; checker functions
that re-state spec properties over outputs are marked as such.
-/

namespace EldLog

/-- Embedding of the segment dictionaries flowing through the pipeline
(`type`, `start_location`, `end_location`, `distance_miles`,
`estimated_drive_time` keys of the Python dicts, views.py). -/
structure Segment where
  type : String
  start_location : String
  end_location : String
  distance_miles : ℚ
  estimated_drive_time : ℚ
  deriving DecidableEq

/-- The four mutable HOS counters of `apply_hos_regulations`
(views.py lines 164-168). -/
structure HOSState where
  hours_driving : ℚ
  hours_duty : ℚ
  cycle_hours : ℚ
  hours_since_break : ℚ
  deriving DecidableEq

/-- The 30-minute break segment inserted at views.py lines 180-186. -/
def breakSegmentAt (loc : String) : Segment :=
  ⟨"break", loc, loc, 0, 1/2⟩

/-- The 10-hour rest segment inserted at views.py lines 222-228 and 254-260. -/
def restSegmentAt (loc : String) : Segment :=
  ⟨"rest", loc, loc, 0, 10⟩

/-- The synthetic waypoint name of views.py line 205. -/
def restStopName (seg : Segment) : String :=
  "Rest Stop (" ++ seg.start_location ++ " to " ++ seg.end_location ++ ")"

/-- The proportional split of a driving leg at remaining drive time
`remaining` (views.py lines 204-245): first component is the emitted
partial driving segment, second is the remainder pushed back to the
front of the queue. -/
def splitDrivingLeg (seg : Segment) (remaining : ℚ) : Segment × Segment :=
  (⟨"driving", seg.start_location, restStopName seg,
      (remaining / seg.estimated_drive_time) * seg.distance_miles, remaining⟩,
   ⟨"driving", restStopName seg, seg.end_location,
      seg.distance_miles - (remaining / seg.estimated_drive_time) * seg.distance_miles,
      seg.estimated_drive_time - remaining⟩)

/-- Fuel-indexed embedding of the while-loop of `apply_hos_regulations`
(views.py lines 172-306).  The queue is consumed from the front; the
branches appear in source order: 30-minute-break insertion, proportional
split at the 11-hour limit, 10-hour rest for the 14-hour window, plain
drive, rest/break pass-through, other on-duty pass-through.  `none` is
returned only on fuel exhaustion; `hosFuel` below is proved sufficient. -/
def hosLoop : ℕ → List Segment → HOSState → Option (List Segment)
  | _, [], _ => some []
  | 0, _ :: _, _ => none
  | n + 1, seg :: q, st =>
    if seg.type = "driving" then
      if 8 ≤ st.hours_since_break then
        Option.map (fun l => breakSegmentAt seg.start_location :: l)
          (hosLoop n (seg :: q)
            ⟨st.hours_driving, st.hours_duty + 1/2, st.cycle_hours + 1/2, 0⟩)
      else if 11 - st.hours_driving < seg.estimated_drive_time then
        Option.map (fun l =>
            (splitDrivingLeg seg (11 - st.hours_driving)).1 ::
            restSegmentAt (restStopName seg) :: l)
          (hosLoop n ((splitDrivingLeg seg (11 - st.hours_driving)).2 :: q)
            ⟨0, 0, st.cycle_hours + (11 - st.hours_driving), 0⟩)
      else if 14 < st.hours_duty + seg.estimated_drive_time then
        Option.map (fun l => restSegmentAt seg.start_location :: l)
          (hosLoop n (seg :: q) ⟨0, 0, st.cycle_hours, 0⟩)
      else
        Option.map (fun l => seg :: l)
          (hosLoop n q
            ⟨st.hours_driving + seg.estimated_drive_time,
             st.hours_duty + seg.estimated_drive_time,
             st.cycle_hours + seg.estimated_drive_time,
             st.hours_since_break + seg.estimated_drive_time⟩)
    else if seg.type = "rest" ∨ seg.type = "break" then
      if 10 ≤ seg.estimated_drive_time then
        Option.map (fun l => seg :: l) (hosLoop n q ⟨0, 0, st.cycle_hours, 0⟩)
      else if 1/2 ≤ seg.estimated_drive_time then
        Option.map (fun l => seg :: l)
          (hosLoop n q
            ⟨st.hours_driving, st.hours_duty + seg.estimated_drive_time,
             st.cycle_hours + seg.estimated_drive_time, 0⟩)
      else
        Option.map (fun l => seg :: l)
          (hosLoop n q
            ⟨st.hours_driving, st.hours_duty + seg.estimated_drive_time,
             st.cycle_hours + seg.estimated_drive_time, st.hours_since_break⟩)
    else
      Option.map (fun l => seg :: l)
        (hosLoop n q
          ⟨st.hours_driving, st.hours_duty + seg.estimated_drive_time,
           st.cycle_hours + seg.estimated_drive_time, st.hours_since_break⟩)

/-- Weight of one queue entry in the termination measure: a driving leg of
duration `t` is popped at most `⌈t/11⌉ + 2` times, any other leg once
(the `+2` / `2` give slack for the re-queue branches). -/
def segWeight (s : Segment) : ℕ :=
  if s.type = "driving" then ⌈s.estimated_drive_time / 11⌉₊ + 2 else 2

/-- Total fuel bound for `hosLoop` on an initial queue. -/
def hosFuel (segs : List Segment) : ℕ :=
  (segs.map segWeight).sum

/-- Embedding of `TripViewSet.apply_hos_regulations` (views.py lines 160-307):
run the work-queue loop from fresh counters, with the cycle counter seeded by
`current_hours_used` (line 167). -/
def apply_hos_regulations (segs : List Segment) (current_hours_used : ℚ) :
    Option (List Segment) :=
  hosLoop (hosFuel segs) segs ⟨0, 0, current_hours_used, 0⟩

/-- Embedding of the `HOSCalculator` counters (hos_utils.py lines 6-11). -/
structure HOSCalculator where
  current_hours_used : ℚ
  driving_hours_left : ℚ
  duty_window_left : ℚ
  cycle_hours_left : ℚ
  time_since_last_break : ℚ
  deriving DecidableEq

/-- Embedding of `HOSCalculator.__init__` (hos_utils.py lines 6-11); note the
source subtracts `current_hours_used` from all three allowances. -/
def HOSCalculator.init (current_hours_used : ℚ) : HOSCalculator :=
  ⟨current_hours_used, 11 - current_hours_used, 14 - current_hours_used,
   70 - current_hours_used, 0⟩

/-- Checker restating claim C1 over an emitted segment sequence: replaying the
output, every driving segment must have duration at most 11 and must keep
driving-since-rest at most 11, duty-since-rest at most 14 and
driving-since-break at most 8.  Rests and breaks reset the counters the way
`apply_hos_regulations` does (a 10h+ rest resets all three, a 30min+ break
resets only the break counter, everything else only accrues duty). -/
def checkHOS (hd duty hsb : ℚ) : List Segment → Bool
  | [] => true
  | s :: rest =>
    if s.type = "driving" then
      decide (s.estimated_drive_time ≤ 11) &&
      decide (hd + s.estimated_drive_time ≤ 11) &&
      decide (duty + s.estimated_drive_time ≤ 14) &&
      decide (hsb + s.estimated_drive_time ≤ 8) &&
      checkHOS (hd + s.estimated_drive_time) (duty + s.estimated_drive_time)
        (hsb + s.estimated_drive_time) rest
    else if s.type = "rest" ∨ s.type = "break" then
      if 10 ≤ s.estimated_drive_time then checkHOS 0 0 0 rest
      else if 1/2 ≤ s.estimated_drive_time then
        checkHOS hd (duty + s.estimated_drive_time) 0 rest
      else checkHOS hd (duty + s.estimated_drive_time) hsb rest
    else checkHOS hd (duty + s.estimated_drive_time) hsb rest

/-- The 11-hour part of `checkHOS` alone: every driving segment of the output
has duration at most 11 and keeps cumulative driving since the last
10-hour rest at most 11. -/
def checkDrive (hd : ℚ) : List Segment → Bool
  | [] => true
  | s :: rest =>
    if s.type = "driving" then
      decide (s.estimated_drive_time ≤ 11) &&
      decide (hd + s.estimated_drive_time ≤ 11) &&
      checkDrive (hd + s.estimated_drive_time) rest
    else if (s.type = "rest" ∨ s.type = "break") ∧ 10 ≤ s.estimated_drive_time then
      checkDrive 0 rest
    else checkDrive hd rest

/-- Four 1-hour pickups followed by a 12-hour driving leg: the split branch
emits an 11-hour driving segment with no 14-hour check, pushing duty since
the last rest to 15 and driving since the last break to 11. -/
def c1CexInput : List Segment :=
  [⟨"pickup", "P", "P", 0, 1⟩, ⟨"pickup", "P", "P", 0, 1⟩,
   ⟨"pickup", "P", "P", 0, 1⟩, ⟨"pickup", "P", "P", 0, 1⟩,
   ⟨"driving", "P", "D", 720, 12⟩]

/-- An 11-hour driving leg followed by a 1-hour one: the first leg exhausts
the 11-hour allowance exactly, so the second is split at a remaining drive
time of zero, emitting a zero-duration zero-distance driving segment and
re-queuing the unchanged remainder. -/
def c5CexInput : List Segment :=
  [⟨"driving", "A", "B", 660, 11⟩, ⟨"driving", "B", "C", 60, 1⟩]

/-- The synthetic fuel-stop waypoint name of views.py line 125. -/
def fuelStopName (cur dest : String) : String :=
  "Fuel Stop (" ++ cur ++ " to " ++ dest ++ ")"

/-- Embedding of the inner while-loop of `add_fuel_stops`
(views.py lines 120-154): while more than 1000 miles remain, emit a
1000-mile driving segment and a half-hour fuel stop, then emit the
positive remainder. -/
def fuelLoop (cur dest : String) (remaining : ℚ) : List Segment :=
  if h : 1000 < remaining then
    Segment.mk "driving" cur (fuelStopName cur dest) 1000 (1000 / 60) ::
    Segment.mk "fuel" (fuelStopName cur dest) (fuelStopName cur dest) 0 (1/2) ::
    fuelLoop (fuelStopName cur dest) dest (remaining - 1000)
  else if 0 < remaining then
    [Segment.mk "driving" cur dest remaining (remaining / 60)]
  else []
termination_by ⌈remaining⌉₊
decreasing_by
  have h0 : (1000 : ℕ) < ⌈remaining⌉₊ := by
    rw [Nat.lt_ceil]; exact_mod_cast h
  have h1 : ⌈remaining - 1000⌉₊ ≤ ⌈remaining⌉₊ - 1000 := by
    rw [Nat.ceil_le]
    push_cast [Nat.cast_sub h0.le]
    have := Nat.le_ceil remaining
    linarith
  omega

/-- Processing of one input leg by `add_fuel_stops` (views.py lines 117-156):
driving legs over 1000 miles are expanded by `fuelLoop`, everything else
passes through unchanged. -/
def fuelProcessOne (seg : Segment) : List Segment :=
  if seg.type = "driving" ∧ 1000 < seg.distance_miles then
    fuelLoop seg.start_location seg.end_location seg.distance_miles
  else [seg]

/-- Embedding of `TripViewSet.add_fuel_stops` (views.py lines 113-158). -/
def add_fuel_stops : List Segment → List Segment
  | [] => []
  | s :: rest => fuelProcessOne s ++ add_fuel_stops rest

/-- Sum of the distances of the driving segments of a list. -/
def drivingDistSum : List Segment → ℚ
  | [] => 0
  | s :: rest =>
    (if s.type = "driving" then s.distance_miles else 0) + drivingDistSum rest

/-- Embedding of the computational core of `TripViewSet.plan_route`
(views.py lines 15-111) once the two geocoded distances are given: build the
four initial legs at 60 mph (lines 48-86), inject fuel stops (line 89) and
apply the HOS regulations (line 92).  The source performs no validation of
the distances or of `current_hours_used`. -/
def plan_route_core (currentLoc pickupLoc dropoffLoc : String)
    (d1 d2 current_hours_used : ℚ) : Option (List Segment) :=
  add_fuel_stops
    [⟨"driving", currentLoc, pickupLoc, d1, d1 / 60⟩,
     ⟨"pickup", pickupLoc, pickupLoc, 0, 1⟩,
     ⟨"driving", pickupLoc, dropoffLoc, d2, d2 / 60⟩,
     ⟨"dropoff", dropoffLoc, dropoffLoc, 0, 1⟩]
  |> (apply_hos_regulations · current_hours_used)

/-- Embedding of `TripViewSet.segment_type_to_status` (views.py lines 381-391). -/
def segment_type_to_status (segment_type : String) : String :=
  if segment_type = "driving" then "driving"
  else if segment_type = "rest" then "off_duty"
  else if segment_type = "pickup" then "on_duty_not_driving"
  else if segment_type = "dropoff" then "on_duty_not_driving"
  else if segment_type = "fuel" then "on_duty_not_driving"
  else if segment_type = "break" then "off_duty"
  else "on_duty_not_driving"

/-- One log record (`LogEntry`, models.py lines 24-33): instants are rational
hours since an epoch midnight, a date is a day index, a time of day lies in
`[0, 24)` hours. -/
structure LogRecord where
  date : ℤ
  status : String
  start_time : ℚ
  end_time : ℚ
  location : String
  deriving DecidableEq

/-- Calendar date of an instant (`datetime.date()`). -/
def dateOf (x : ℚ) : ℤ := ⌊x / 24⌋

/-- Time of day of an instant (`datetime.time()`). -/
def timeOf (x : ℚ) : ℚ := x - 24 * dateOf x

/-- The time of day 23:59:59 (`midnight - timedelta(seconds=1)`,
views.py line 338). -/
def lastSec : ℚ := 24 - 1 / 3600

/-- The full-day records of the inner loop of `generate_logs`
(views.py lines 350-366): `n` records from date `d` on, each spanning
00:00:00 to 23:59:59. -/
def fullDays (d : ℤ) (status loc : String) : ℕ → List LogRecord
  | 0 => []
  | n + 1 => ⟨d, status, 0, lastSec, loc⟩ :: fullDays (d + 1) status loc n

/-- The log records produced for one segment starting at instant `cur`
(views.py lines 318-376): one record when the segment stays within a
calendar date, otherwise a first record up to 23:59:59, one full-day record
per intermediate date, and a final record from 00:00:00. -/
def logsForSegment (cur : ℚ) (seg : Segment) : List LogRecord :=
  if dateOf cur = dateOf (cur + seg.estimated_drive_time) then
    [⟨dateOf cur, segment_type_to_status seg.type, timeOf cur,
      timeOf (cur + seg.estimated_drive_time), seg.start_location⟩]
  else
    ⟨dateOf cur, segment_type_to_status seg.type, timeOf cur, lastSec,
      seg.start_location⟩ ::
    (fullDays (dateOf cur + 1) (segment_type_to_status seg.type)
        seg.start_location
        (dateOf (cur + seg.estimated_drive_time) - (dateOf cur + 1)).toNat ++
      [⟨dateOf (cur + seg.estimated_drive_time),
        segment_type_to_status seg.type, 0,
        timeOf (cur + seg.estimated_drive_time), seg.start_location⟩])

/-- The fold of `generate_logs` over the segments, threading the running
instant (views.py lines 318-379). -/
def genLogsFrom (cur : ℚ) : List Segment → List LogRecord
  | [] => []
  | s :: rest => logsForSegment cur s ++ genLogsFrom (cur + s.estimated_drive_time) rest

/-- Embedding of `TripViewSet.generate_logs` (views.py lines 309-379): the
start instant is truncated to the hour (line 316), then each segment is
partitioned over calendar days. -/
def generate_logs (segs : List Segment) (start : ℚ) : List LogRecord :=
  genLogsFrom (⌊start⌋ : ℤ) segs

/-- Adjacency of two consecutive log records, restating claim C2's
no-gap/no-overlap tiling: the next record starts at the very instant the
previous one ends, except at a day boundary where the previous ends at
23:59:59 of a date and the next starts at 00:00:00 of the following date. -/
def adjacentRecords (r r' : LogRecord) : Prop :=
  (r'.date = r.date ∧ r'.start_time = r.end_time) ∨
  (r'.date = r.date + 1 ∧ r.end_time = lastSec ∧ r'.start_time = 0)

instance (r r' : LogRecord) : Decidable (adjacentRecords r r') := by
  unfold adjacentRecords; infer_instance

/-- Instant at which a log record ends. -/
def endInstant (r : LogRecord) : ℚ := 24 * r.date + r.end_time

/-- Invariant of the reachable states of the `apply_hos_regulations` loop:
queue durations are non-negative, driving-since-rest lies in `[0, 11]`, and
driving-since-break is non-negative and bounded by duty-since-rest. -/
def hosInv (q : List Segment) (st : HOSState) : Prop :=
  (∀ s ∈ q, 0 ≤ s.estimated_drive_time) ∧
  0 ≤ st.hours_driving ∧ st.hours_driving ≤ 11 ∧
  0 ≤ st.hours_since_break ∧ st.hours_since_break ≤ st.hours_duty

/-- Indicator of the termination measure: a pending 30-minute break. -/
def chiBreak (st : HOSState) : ℕ := if 8 ≤ st.hours_since_break then 1 else 0

/-- Indicator of the termination measure: accumulated driving or duty time. -/
def chiWork (st : HOSState) : ℕ :=
  if 0 < st.hours_driving ∨ 0 < st.hours_duty then 1 else 0

/-- Termination measure of the `apply_hos_regulations` loop: total queue
weight plus the two state indicators.  It strictly decreases on every
iteration. -/
def hosMeasure (q : List Segment) (st : HOSState) : ℕ :=
  hosFuel q + chiBreak st + chiWork st

/-- Concrete state for the C5 witness: exactly 11 hours driven since the
last rest, 11.5 hours of duty, break timer just reset. -/
def c5State : HOSState := ⟨11, 23/2, 23/2, 0⟩

/-- Concrete leg for the C5 witness: one more hour of driving. -/
def c5Leg : Segment := ⟨"driving", "B", "C", 60, 1⟩

/-- Concrete leg for the C7 witness: a 12-hour leg that must be split. -/
def c7Leg : Segment := ⟨"driving", "A", "B", 720, 12⟩

/-- Concrete leg for the C4 witness: the 700-mile leg of the spec scenario. -/
def c4Leg : Segment := ⟨"driving", "A", "B", 700, 700/60⟩

/-! ## Theorems -/

/-- C3, counterexample: the claim asserts that for every starting value the
tracker begins with `driving_hours_left = 11` and `duty_window_left = 14`.
At `current_hours_used = 5` the source (hos_utils.py lines 8-9) yields
`driving_hours_left = 6` and `duty_window_left = 9`, refuting the claim. -/
theorem hos_init_claim_false_at_5 :
    ¬ ((HOSCalculator.init 5).driving_hours_left = 11 ∧
       (HOSCalculator.init 5).duty_window_left = 14) := by
  norm_num [HOSCalculator.init]

/-- C3, amended: a freshly constructed `HOSCalculator` starts with
`driving_hours_left = 11 - current_hours_used`,
`duty_window_left = 14 - current_hours_used`,
`cycle_hours_left = 70 - current_hours_used` and
`time_since_last_break = 0`: the caller-supplied seed is subtracted from all
three allowances, not only from the cycle counter. -/
theorem hos_init_values (chu : ℚ) :
    (HOSCalculator.init chu).driving_hours_left = 11 - chu ∧
    (HOSCalculator.init chu).duty_window_left = 14 - chu ∧
    (HOSCalculator.init chu).cycle_hours_left = 70 - chu ∧
    (HOSCalculator.init chu).time_since_last_break = 0 :=
  ⟨rfl, rfl, rfl, rfl⟩

/-- C5, counterexample: on two driving legs of 11h and 1h the split branch
fires with `remaining_drive_time = 0`: the segmenter emits a zero-duration,
zero-distance driving segment followed by a rest, and the re-queued
remainder (emitted last) still has the full 1 hour and 60 miles of the
original leg, refuting "the progress step is positive". -/
theorem split_zero_progress_cex :
    apply_hos_regulations c5CexInput 0 =
      some [⟨"driving", "A", "B", 660, 11⟩,
            ⟨"break", "B", "B", 0, 1/2⟩,
            ⟨"driving", "B", "Rest Stop (B to C)", 0, 0⟩,
            ⟨"rest", "Rest Stop (B to C)", "Rest Stop (B to C)", 0, 10⟩,
            ⟨"driving", "Rest Stop (B to C)", "C", 60, 1⟩] := by
  with_unfolding_all rfl

/-- C5, amended: in any state with `0 ≤ hours_driving ≤ 11` (an invariant of
the loop) the split step has non-negative progress `11 - hours_driving`; the
progress is zero exactly when the 11 driving hours are exhausted, in which
case the emitted partial segment has zero duration and distance and the
re-queued remainder equals the original leg; whenever the progress is
positive, the partial segment has positive duration and the remainder is
strictly shorter than the original. -/
theorem split_progress (st : HOSState) (seg : Segment)
    (h0 : 0 ≤ st.hours_driving) (h11 : st.hours_driving ≤ 11)
    (hs : 11 - st.hours_driving < seg.estimated_drive_time) :
    0 ≤ 11 - st.hours_driving ∧
    (11 - st.hours_driving = 0 ↔ st.hours_driving = 11) ∧
    (0 < 11 - st.hours_driving →
      0 < (splitDrivingLeg seg (11 - st.hours_driving)).1.estimated_drive_time ∧
      (splitDrivingLeg seg (11 - st.hours_driving)).2.estimated_drive_time <
        seg.estimated_drive_time) ∧
    (st.hours_driving = 11 →
      (splitDrivingLeg seg (11 - st.hours_driving)).1.estimated_drive_time = 0 ∧
      (splitDrivingLeg seg (11 - st.hours_driving)).1.distance_miles = 0 ∧
      (splitDrivingLeg seg (11 - st.hours_driving)).2.estimated_drive_time =
        seg.estimated_drive_time ∧
      (splitDrivingLeg seg (11 - st.hours_driving)).2.distance_miles =
        seg.distance_miles) := by
  refine ⟨by linarith, ⟨fun h => by linarith, fun h => by rw [h]; ring⟩,
    fun hpos => ⟨?_, ?_⟩, fun h => ?_⟩
  · simpa [splitDrivingLeg] using hpos
  · simp only [splitDrivingLeg]
    linarith
  · rw [h]
    norm_num [splitDrivingLeg]

/-- C5, witness for `split_progress` at the state reached in the
counterexample run: eleven hours already driven, a one-hour leg pending. -/
theorem split_progress_witness :
    (0 ≤ c5State.hours_driving ∧ c5State.hours_driving ≤ 11 ∧
      11 - c5State.hours_driving < c5Leg.estimated_drive_time) ∧
    (0 ≤ 11 - c5State.hours_driving ∧
     (11 - c5State.hours_driving = 0 ↔ c5State.hours_driving = 11) ∧
     (0 < 11 - c5State.hours_driving →
       0 < (splitDrivingLeg c5Leg (11 - c5State.hours_driving)).1.estimated_drive_time ∧
       (splitDrivingLeg c5Leg (11 - c5State.hours_driving)).2.estimated_drive_time <
         c5Leg.estimated_drive_time) ∧
     (c5State.hours_driving = 11 →
       (splitDrivingLeg c5Leg (11 - c5State.hours_driving)).1.estimated_drive_time = 0 ∧
       (splitDrivingLeg c5Leg (11 - c5State.hours_driving)).1.distance_miles = 0 ∧
       (splitDrivingLeg c5Leg (11 - c5State.hours_driving)).2.estimated_drive_time =
         c5Leg.estimated_drive_time ∧
       (splitDrivingLeg c5Leg (11 - c5State.hours_driving)).2.distance_miles =
         c5Leg.distance_miles)) :=
  ⟨⟨by with_unfolding_all decide, by with_unfolding_all decide,
    by with_unfolding_all decide⟩,
   split_progress c5State c5Leg (by with_unfolding_all decide)
     (by with_unfolding_all decide) (by with_unfolding_all decide)⟩

/-- C7: whenever the split branch fires (driving leg, no pending break,
duration over the remaining drive time `r = 11 - hours_driving`), the loop
emits the proportional partial segment of duration `r` and distance
`(r / duration) * distance` followed by a 10-hour rest, and re-queues the
remainder `(distance - partial_distance, duration - r)`; the two parts sum
exactly to the original distance and duration. -/
theorem split_branch_equation (n : ℕ) (q : List Segment) (st : HOSState)
    (seg : Segment) (hk : seg.type = "driving")
    (hb : ¬ 8 ≤ st.hours_since_break)
    (hs : 11 - st.hours_driving < seg.estimated_drive_time) :
    hosLoop (n + 1) (seg :: q) st =
      Option.map (fun l =>
          (splitDrivingLeg seg (11 - st.hours_driving)).1 ::
          restSegmentAt (restStopName seg) :: l)
        (hosLoop n ((splitDrivingLeg seg (11 - st.hours_driving)).2 :: q)
          ⟨0, 0, st.cycle_hours + (11 - st.hours_driving), 0⟩) ∧
    (splitDrivingLeg seg (11 - st.hours_driving)).1.estimated_drive_time =
      11 - st.hours_driving ∧
    (splitDrivingLeg seg (11 - st.hours_driving)).1.distance_miles =
      ((11 - st.hours_driving) / seg.estimated_drive_time) * seg.distance_miles ∧
    (splitDrivingLeg seg (11 - st.hours_driving)).2.estimated_drive_time =
      seg.estimated_drive_time - (11 - st.hours_driving) ∧
    (splitDrivingLeg seg (11 - st.hours_driving)).2.distance_miles =
      seg.distance_miles -
        (splitDrivingLeg seg (11 - st.hours_driving)).1.distance_miles ∧
    (splitDrivingLeg seg (11 - st.hours_driving)).1.distance_miles +
      (splitDrivingLeg seg (11 - st.hours_driving)).2.distance_miles =
      seg.distance_miles ∧
    (splitDrivingLeg seg (11 - st.hours_driving)).1.estimated_drive_time +
      (splitDrivingLeg seg (11 - st.hours_driving)).2.estimated_drive_time =
      seg.estimated_drive_time := by
  refine ⟨?_, rfl, rfl, rfl, rfl, ?_, ?_⟩
  · simp only [hosLoop, if_pos hk, if_neg hb, if_pos hs]
  · simp only [splitDrivingLeg]
    ring
  · simp only [splitDrivingLeg]
    ring

/-- C7, witness for `split_branch_equation`: fresh counters and a 12-hour,
720-mile leg, split at 11 hours. -/
theorem split_branch_equation_witness :
    (c7Leg.type = "driving" ∧ ¬ (8:ℚ) ≤ (0:ℚ) ∧
      11 - (0:ℚ) < c7Leg.estimated_drive_time) ∧
    hosLoop 1 [c7Leg] ⟨0, 0, 0, 0⟩ =
      Option.map (fun l =>
          (splitDrivingLeg c7Leg (11 - (0:ℚ))).1 ::
          restSegmentAt (restStopName c7Leg) :: l)
        (hosLoop 0 [(splitDrivingLeg c7Leg (11 - (0:ℚ))).2]
          ⟨0, 0, (0:ℚ) + (11 - (0:ℚ)), 0⟩) :=
  ⟨⟨rfl, by with_unfolding_all decide, by with_unfolding_all decide⟩,
   (split_branch_equation 0 [] ⟨0, 0, 0, 0⟩ c7Leg rfl
     (by with_unfolding_all decide) (by with_unfolding_all decide)).1⟩

/-- C1, counterexample: after four 1-hour pickups (duty = 4h) a 12-hour leg
is split; the emitted 11-hour driving segment pushes duty since the last
rest to 15 > 14 and driving since the last break to 11 > 8 with no break or
rest emitted first, so the replayed output fails the claimed invariants. -/
theorem hos_limits_claim_cex :
    (apply_hos_regulations c1CexInput 0).map (checkHOS 0 0 0) = some false := by
  with_unfolding_all rfl

/-- C10, counterexample: a zero-duration segment whose start (and hence end)
instant is exactly midnight: the partitioner compares equal dates and takes
the single-record branch, emitting one `00:00:00-00:00:00` record and no
preceding `23:59:59` record for that segment, refuting the claim that every
segment ending exactly at midnight goes through the midnight-crossing
branch. -/
theorem midnight_end_same_date_cex :
    generate_logs [⟨"rest", "A", "A", 0, 10⟩, ⟨"driving", "A", "B", 0, 0⟩] 14 =
      [⟨0, "off_duty", 14, lastSec, "A"⟩,
       ⟨1, "off_duty", 0, 0, "A"⟩,
       ⟨1, "driving", 0, 0, "A"⟩] := by
  with_unfolding_all rfl

/-- C8, counterexample: with a starting cycle-hours value of 100, far outside
`[0, 70]`, the planning entry point does not reject the request: it runs the
whole pipeline and returns a complete plan (the source, views.py lines
15-111, contains no validation of legs or of `current_hours_used`). -/
theorem plan_route_no_validation_cex :
    70 < (100:ℚ) ∧ (plan_route_core "A" "B" "C" 60 60 100).isSome = true :=
  ⟨by norm_num, by with_unfolding_all rfl⟩

/-- Helper: the driving distances emitted by the fuel-stop loop for a
positive remaining distance sum exactly to that distance. -/
lemma fuelLoop_dist_sum (cur dest : String) (r : ℚ) (h : 0 < r) :
    drivingDistSum (fuelLoop cur dest r) = r := by
  induction cur, dest, r using fuelLoop.induct with
  | case1 cur dest r hgt ih =>
    rw [fuelLoop, dif_pos hgt]
    rw [drivingDistSum, drivingDistSum, if_pos rfl,
      if_neg (by decide : ¬ ("fuel" : String) = "driving"), ih]
    · ring
    · linarith
  | case2 cur dest r hle hpos =>
    rw [fuelLoop, dif_neg hle, if_pos hpos]
    rw [drivingDistSum, drivingDistSum, if_pos rfl]
    ring
  | case3 cur dest r hle hnpos =>
    exact absurd h hnpos

/-- Helper: every segment emitted by the fuel-stop loop has distance at
most 1000 miles. -/
lemma fuelLoop_dist_le (cur dest : String) (r : ℚ) :
    ∀ s ∈ fuelLoop cur dest r, s.distance_miles ≤ 1000 := by
  induction cur, dest, r using fuelLoop.induct with
  | case1 cur dest r hgt ih =>
    rw [fuelLoop, dif_pos hgt]
    intro s hs
    simp only [List.mem_cons] at hs
    rcases hs with hs | hs | hs
    · norm_num [hs]
    · norm_num [hs]
    · exact ih s hs
  | case2 cur dest r hle hpos =>
    rw [fuelLoop, dif_neg hle, if_pos hpos]
    intro s hs
    simp only [List.mem_singleton] at hs
    push_neg at hle
    simpa [hs] using hle
  | case3 cur dest r hle hnpos =>
    rw [fuelLoop, dif_neg hle, if_neg hnpos]
    intro s hs
    simp at hs

/-- Helper: every segment emitted by the fuel-stop loop has a non-negative
duration. -/
lemma fuelLoop_time_nonneg (cur dest : String) (r : ℚ) :
    ∀ s ∈ fuelLoop cur dest r, 0 ≤ s.estimated_drive_time := by
  induction cur, dest, r using fuelLoop.induct with
  | case1 cur dest r hgt ih =>
    rw [fuelLoop, dif_pos hgt]
    intro s hs
    simp only [List.mem_cons] at hs
    rcases hs with hs | hs | hs
    · norm_num [hs]
    · norm_num [hs]
    · exact ih s hs
  | case2 cur dest r hle hpos =>
    rw [fuelLoop, dif_neg hle, if_pos hpos]
    intro s hs
    simp only [List.mem_singleton] at hs
    rw [hs]
    positivity
  | case3 cur dest r hle hnpos =>
    rw [fuelLoop, dif_neg hle, if_neg hnpos]
    intro s hs
    simp at hs

/-- C6: the fuel-stop injector preserves each driving leg's total distance
exactly, never emits a driving segment over 1000 miles, and passes
non-driving legs and driving legs of at most 1000 miles through
unchanged. -/
theorem add_fuel_stops_spec :
    (∀ seg : Segment, seg.type = "driving" →
        drivingDistSum (fuelProcessOne seg) = seg.distance_miles) ∧
    (∀ (segs : List Segment) (s : Segment), s ∈ add_fuel_stops segs →
        s.type = "driving" → s.distance_miles ≤ 1000) ∧
    (∀ seg : Segment, seg.type ≠ "driving" ∨ seg.distance_miles ≤ 1000 →
        fuelProcessOne seg = [seg]) := by
  refine ⟨?_, ?_, ?_⟩
  · intro seg hk
    unfold fuelProcessOne
    by_cases hd : 1000 < seg.distance_miles
    · rw [if_pos ⟨hk, hd⟩]
      exact fuelLoop_dist_sum _ _ _ (by linarith)
    · rw [if_neg (by tauto)]
      rw [drivingDistSum, drivingDistSum, if_pos hk]
      ring
  · intro segs
    induction segs with
    | nil =>
      intro s hs
      simp [add_fuel_stops] at hs
    | cons a rest ih =>
      intro s hs hk
      rw [add_fuel_stops] at hs
      rcases List.mem_append.mp hs with h1 | h2
      · unfold fuelProcessOne at h1
        by_cases hcond : a.type = "driving" ∧ 1000 < a.distance_miles
        · rw [if_pos hcond] at h1
          exact fuelLoop_dist_le _ _ _ s h1
        · rw [if_neg hcond] at h1
          have hsa : s = a := by simpa using h1
          subst hsa
          by_contra hgt
          push_neg at hgt
          exact hcond ⟨hk, hgt⟩
      · exact ih s h2 hk
  · intro seg hcase
    unfold fuelProcessOne
    rw [if_neg ?_]
    rintro ⟨h1, h2⟩
    rcases hcase with hc | hc
    · exact hc h1
    · linarith

/-- C6, witness for `add_fuel_stops_spec`: a 2500-mile driving leg keeps its
total distance, and a pickup leg passes through unchanged. -/
theorem add_fuel_stops_spec_witness :
    (⟨"driving", "A", "B", 2500, 2500/60⟩ : Segment).type = "driving" ∧
    drivingDistSum (fuelProcessOne ⟨"driving", "A", "B", 2500, 2500/60⟩) = 2500 ∧
    fuelProcessOne ⟨"pickup", "P", "P", 0, 1⟩ = [⟨"pickup", "P", "P", 0, 1⟩] :=
  ⟨rfl, add_fuel_stops_spec.1 _ rfl,
   add_fuel_stops_spec.2.2 _ (Or.inl (by decide))⟩

/-- Helper: the weight of a queue entry is at least 2. -/
lemma segWeight_ge_two (s : Segment) : 2 ≤ segWeight s := by
  unfold segWeight
  split <;> omega

/-- Helper: queue weight of a cons cell. -/
lemma hosFuel_cons (s : Segment) (q : List Segment) :
    hosFuel (s :: q) = segWeight s + hosFuel q := by
  simp [hosFuel]

/-- Helper: the break indicator is at most 1. -/
lemma chiBreak_le_one (st : HOSState) : chiBreak st ≤ 1 := by
  unfold chiBreak
  split <;> omega

/-- Helper: the work indicator is at most 1. -/
lemma chiWork_le_one (st : HOSState) : chiWork st ≤ 1 := by
  unfold chiWork
  split <;> omega

/-- Helper: the ceiling weight of a positive duration is at least 1. -/
lemma ceil_div_pos {t : ℚ} (h : 0 < t) : 1 ≤ ⌈t / 11⌉₊ :=
  Nat.ceil_pos.mpr (by positivity)

/-- Helper: the ceiling weight is monotone in the duration. -/
lemma ceil_div_mono {a b : ℚ} (h : a ≤ b) : ⌈a / 11⌉₊ ≤ ⌈b / 11⌉₊ :=
  Nat.ceil_mono (by linarith)

/-- Helper: driving 11 hours lowers the ceiling weight by exactly one. -/
lemma ceil_div_shift {t : ℚ} (h : 11 < t) : ⌈t / 11⌉₊ = ⌈(t - 11) / 11⌉₊ + 1 := by
  have h0 : (0:ℚ) ≤ (t - 11) / 11 := by
    apply div_nonneg _ (by norm_num)
    linarith
  have ht : t / 11 = (t - 11) / 11 + 1 := by ring
  rw [ht, Nat.ceil_add_one h0]

/-- Helper: from any state satisfying the invariant, the loop succeeds as
soon as the fuel covers the measure — the measure strictly decreases on
every iteration of the work queue. -/
lemma hosLoop_isSome (n : ℕ) :
    ∀ (q : List Segment) (st : HOSState),
      hosInv q st → hosMeasure q st ≤ n → (hosLoop n q st).isSome := by
  induction n with
  | zero =>
    intro q st _ hm
    cases q with
    | nil => simp [hosLoop]
    | cons s q' =>
      have h2 := segWeight_ge_two s
      unfold hosMeasure at hm
      rw [hosFuel_cons] at hm
      omega
  | succ n ih =>
    intro q st hinv hm
    cases q with
    | nil => simp [hosLoop]
    | cons seg q' =>
      obtain ⟨hq, h0, h11, hb0, hbd⟩ := hinv
      have ht : 0 ≤ seg.estimated_drive_time := hq seg (List.mem_cons_self _ _)
      have hq' : ∀ s ∈ q', 0 ≤ s.estimated_drive_time :=
        fun s hs => hq s (List.mem_cons_of_mem _ hs)
      unfold hosMeasure at hm
      rw [hosFuel_cons] at hm
      by_cases hdrv : seg.type = "driving"
      · have hw : segWeight seg = ⌈seg.estimated_drive_time / 11⌉₊ + 2 := by
          unfold segWeight
          rw [if_pos hdrv]
        by_cases hbrk : 8 ≤ st.hours_since_break
        · -- 30-minute break inserted, same leg re-queued
          simp only [hosLoop, if_pos hdrv, if_pos hbrk, Option.isSome_map']
          apply ih
          · exact ⟨hq, h0, h11, le_refl 0, by dsimp only; linarith⟩
          · have e1 : chiBreak ⟨st.hours_driving, st.hours_duty + 1/2,
                st.cycle_hours + 1/2, 0⟩ = 0 := by
              unfold chiBreak
              norm_num
            have e2 : chiBreak st = 1 := by
              unfold chiBreak
              rw [if_pos hbrk]
            have e3 : chiWork st = 1 := by
              unfold chiWork
              rw [if_pos (Or.inr (by linarith))]
            have e4 := chiWork_le_one ⟨st.hours_driving, st.hours_duty + 1/2,
              st.cycle_hours + 1/2, 0⟩
            unfold hosMeasure
            rw [hosFuel_cons]
            omega
        · by_cases hsplit : 11 - st.hours_driving < seg.estimated_drive_time
          · -- proportional split, remainder re-queued, counters reset
            simp only [hosLoop, if_pos hdrv, if_neg hbrk, if_pos hsplit,
              Option.isSome_map']
            apply ih
            · refine ⟨?_, le_refl 0, by norm_num, le_refl 0, le_refl 0⟩
              intro s hs
              rcases List.mem_cons.mp hs with hs | hs
              · rw [hs]
                show 0 ≤ seg.estimated_drive_time - (11 - st.hours_driving)
                linarith
              · exact hq' s hs
            · have e1 : chiBreak ⟨0, 0, st.cycle_hours + (11 - st.hours_driving), 0⟩ = 0 := by
                unfold chiBreak
                norm_num
              have e2 : chiWork ⟨0, 0, st.cycle_hours + (11 - st.hours_driving), 0⟩ = 0 := by
                unfold chiWork
                norm_num
              have e3 : chiBreak st = 0 := by
                unfold chiBreak
                rw [if_neg hbrk]
              have hw2 : segWeight (splitDrivingLeg seg (11 - st.hours_driving)).2 =
                  ⌈(seg.estimated_drive_time - (11 - st.hours_driving)) / 11⌉₊ + 2 := by
                unfold segWeight splitDrivingLeg
                rw [if_pos rfl]
              unfold hosMeasure
              rw [hosFuel_cons, e1, e2, hw2]
              by_cases hcw : 0 < st.hours_driving ∨ 0 < st.hours_duty
              · have e4 : chiWork st = 1 := by
                  unfold chiWork
                  rw [if_pos hcw]
                have mono : ⌈(seg.estimated_drive_time - (11 - st.hours_driving)) / 11⌉₊ ≤
                    ⌈seg.estimated_drive_time / 11⌉₊ :=
                  ceil_div_mono (by linarith)
                omega
              · push_neg at hcw
                have hd0 : st.hours_driving = 0 := le_antisymm hcw.1 h0
                have e4 : chiWork st = 0 := by
                  unfold chiWork
                  rw [if_neg]
                  push_neg
                  exact hcw
                have hshift : ⌈seg.estimated_drive_time / 11⌉₊ =
                    ⌈(seg.estimated_drive_time - (11 - st.hours_driving)) / 11⌉₊ + 1 := by
                  rw [hd0]
                  norm_num
                  exact ceil_div_shift (by rw [hd0] at hsplit; linarith)
                omega
          · by_cases hduty : 14 < st.hours_duty + seg.estimated_drive_time
            · -- 14-hour window exceeded: rest inserted, same leg re-queued
              simp only [hosLoop, if_pos hdrv, if_neg hbrk, if_neg hsplit,
                if_pos hduty, Option.isSome_map']
              apply ih
              · exact ⟨hq, le_refl 0, by norm_num, le_refl 0, le_refl 0⟩
              · have e1 : chiBreak ⟨0, 0, st.cycle_hours, 0⟩ = 0 := by
                  unfold chiBreak
                  norm_num
                have e2 : chiWork ⟨0, 0, st.cycle_hours, 0⟩ = 0 := by
                  unfold chiWork
                  norm_num
                have e3 : chiWork st = 1 := by
                  unfold chiWork
                  rw [if_pos (Or.inr (by push_neg at hsplit; linarith))]
                unfold hosMeasure
                rw [hosFuel_cons]
                omega
            · -- plain drive: leg consumed
              simp only [hosLoop, if_pos hdrv, if_neg hbrk, if_neg hsplit,
                if_neg hduty, Option.isSome_map']
              push_neg at hsplit
              apply ih
              · exact ⟨hq', by dsimp only; linarith, by dsimp only; linarith,
                  by dsimp only; linarith, by dsimp only; linarith⟩
              · have e1 := chiBreak_le_one ⟨st.hours_driving + seg.estimated_drive_time,
                  st.hours_duty + seg.estimated_drive_time,
                  st.cycle_hours + seg.estimated_drive_time,
                  st.hours_since_break + seg.estimated_drive_time⟩
                have e2 := chiWork_le_one ⟨st.hours_driving + seg.estimated_drive_time,
                  st.hours_duty + seg.estimated_drive_time,
                  st.cycle_hours + seg.estimated_drive_time,
                  st.hours_since_break + seg.estimated_drive_time⟩
                unfold hosMeasure
                rcases eq_or_lt_of_le ht with heq | hlt
                · have e3 : chiBreak ⟨st.hours_driving + seg.estimated_drive_time,
                      st.hours_duty + seg.estimated_drive_time,
                      st.cycle_hours + seg.estimated_drive_time,
                      st.hours_since_break + seg.estimated_drive_time⟩ = chiBreak st := by
                    rw [← heq]
                    simp only [add_zero]
                  have e4 : chiWork ⟨st.hours_driving + seg.estimated_drive_time,
                      st.hours_duty + seg.estimated_drive_time,
                      st.cycle_hours + seg.estimated_drive_time,
                      st.hours_since_break + seg.estimated_drive_time⟩ = chiWork st := by
                    rw [← heq]
                    simp only [add_zero]
                  rw [e3, e4]
                  omega
                · have e5 : 1 ≤ ⌈seg.estimated_drive_time / 11⌉₊ := ceil_div_pos hlt
                  omega
      · have hw : segWeight seg = 2 := by
          unfold segWeight
          rw [if_neg hdrv]
        by_cases hrb : seg.type = "rest" ∨ seg.type = "break"
        · by_cases h10 : 10 ≤ seg.estimated_drive_time
          · -- input rest of 10h or more: full reset
            simp only [hosLoop, if_neg hdrv, if_pos hrb, if_pos h10,
              Option.isSome_map']
            apply ih
            · exact ⟨hq', le_refl 0, by norm_num, le_refl 0, le_refl 0⟩
            · have e1 : chiBreak ⟨0, 0, st.cycle_hours, 0⟩ = 0 := by
                unfold chiBreak
                norm_num
              have e2 : chiWork ⟨0, 0, st.cycle_hours, 0⟩ = 0 := by
                unfold chiWork
                norm_num
              unfold hosMeasure
              omega
          · by_cases h05 : 1/2 ≤ seg.estimated_drive_time
            · -- input break of 30 minutes or more: break timer reset
              simp only [hosLoop, if_neg hdrv, if_pos hrb, if_neg h10,
                if_pos h05, Option.isSome_map']
              apply ih
              · exact ⟨hq', h0, h11, le_refl 0, by dsimp only; linarith⟩
              · have e1 : chiBreak ⟨st.hours_driving,
                    st.hours_duty + seg.estimated_drive_time,
                    st.cycle_hours + seg.estimated_drive_time, 0⟩ = 0 := by
                  unfold chiBreak
                  norm_num
                have e2 := chiWork_le_one ⟨st.hours_driving,
                  st.hours_duty + seg.estimated_drive_time,
                  st.cycle_hours + seg.estimated_drive_time, 0⟩
                unfold hosMeasure
                omega
            · -- sub-30-minute stop: duty only
              simp only [hosLoop, if_neg hdrv, if_pos hrb, if_neg h10,
                if_neg h05, Option.isSome_map']
              apply ih
              · exact ⟨hq', h0, h11, hb0, by dsimp only; linarith⟩
              · have e1 : chiBreak ⟨st.hours_driving,
                    st.hours_duty + seg.estimated_drive_time,
                    st.cycle_hours + seg.estimated_drive_time,
                    st.hours_since_break⟩ = chiBreak st := rfl
                have e2 := chiWork_le_one ⟨st.hours_driving,
                  st.hours_duty + seg.estimated_drive_time,
                  st.cycle_hours + seg.estimated_drive_time,
                  st.hours_since_break⟩
                have e3 := chiBreak_le_one st
                unfold hosMeasure
                rw [e1]
                omega
        · -- other on-duty segment (pickup, dropoff, fuel)
          simp only [hosLoop, if_neg hdrv, if_neg hrb, Option.isSome_map']
          apply ih
          · exact ⟨hq', h0, h11, hb0, by dsimp only; linarith⟩
          · have e1 : chiBreak ⟨st.hours_driving,
                st.hours_duty + seg.estimated_drive_time,
                st.cycle_hours + seg.estimated_drive_time,
                st.hours_since_break⟩ = chiBreak st := rfl
            have e2 := chiWork_le_one ⟨st.hours_driving,
              st.hours_duty + seg.estimated_drive_time,
              st.cycle_hours + seg.estimated_drive_time,
              st.hours_since_break⟩
            have e3 := chiBreak_le_one st
            unfold hosMeasure
            rw [e1]
            omega

/-- Helper: the HOS segmenter succeeds (no fuel exhaustion) on any queue of
legs with non-negative durations, for any cycle seed. -/
lemma apply_hos_isSome_of_nonneg (segs : List Segment) (seed : ℚ)
    (h : ∀ s ∈ segs, 0 ≤ s.estimated_drive_time) :
    (apply_hos_regulations segs seed).isSome := by
  unfold apply_hos_regulations
  apply hosLoop_isSome
  · exact ⟨h, le_refl 0, by norm_num, le_refl 0, le_refl 0⟩
  · have e1 : chiBreak ⟨0, 0, seed, 0⟩ = 0 := by
      unfold chiBreak
      norm_num
    have e2 : chiWork ⟨0, 0, seed, 0⟩ = 0 := by
      unfold chiWork
      norm_num
    unfold hosMeasure
    omega

/-- C4: on any finite leg sequence with non-negative distances and
durations, the regulation segmenter's work-queue loop terminates and
returns a segment list: the fuel bound `hosFuel` always suffices, so the
loop is a total function of well-formed input. -/
theorem apply_hos_terminates (segs : List Segment) (seed : ℚ)
    (h : ∀ s ∈ segs, 0 ≤ s.distance_miles ∧ 0 ≤ s.estimated_drive_time) :
    (apply_hos_regulations segs seed).isSome :=
  apply_hos_isSome_of_nonneg segs seed (fun s hs => (h s hs).2)

/-- C4, witness for `apply_hos_terminates`: the 700-mile spec-scenario leg. -/
theorem apply_hos_terminates_witness :
    (∀ s ∈ [c4Leg], 0 ≤ s.distance_miles ∧ 0 ≤ s.estimated_drive_time) ∧
    (apply_hos_regulations [c4Leg] 0).isSome :=
  ⟨by intro s hs; simp only [List.mem_singleton] at hs; rw [hs]; constructor <;>
      with_unfolding_all decide,
   apply_hos_terminates [c4Leg] 0 (by
    intro s hs
    simp only [List.mem_singleton] at hs
    rw [hs]
    constructor <;> with_unfolding_all decide)⟩

/-- Helper: no branch of the work-queue loop reads the cycle counter, so two
runs whose states differ only in `cycle_hours` produce identical output. -/
lemma hosLoop_cycle_invariant (n : ℕ) :
    ∀ (q : List Segment) (hd duty hsb c c' : ℚ),
      hosLoop n q ⟨hd, duty, c, hsb⟩ = hosLoop n q ⟨hd, duty, c', hsb⟩ := by
  induction n with
  | zero =>
    intro q hd duty hsb c c'
    cases q <;> simp [hosLoop]
  | succ n ih =>
    intro q hd duty hsb c c'
    cases q with
    | nil => simp [hosLoop]
    | cons seg q' =>
      simp only [hosLoop]
      split_ifs <;> exact congrArg _ (ih _ _ _ _ _ _)

/-- C9: the cycle counter never gates any decision: for any two starting
values of `current_hours_used`, `apply_hos_regulations` returns the
identical segment sequence — cycle hours are tracked but not enforced. -/
theorem apply_hos_cycle_seed_irrelevant (segs : List Segment) (a b : ℚ) :
    apply_hos_regulations segs a = apply_hos_regulations segs b := by
  unfold apply_hos_regulations
  exact hosLoop_cycle_invariant (hosFuel segs) segs 0 0 0 a b

/-- Helper: replaying any successful run of the loop from a state whose
driving counter lies in `[0, 11]` (queue durations non-negative), every
emitted driving segment has duration at most 11 and keeps cumulative
driving since the last 10-hour rest at most 11. -/
lemma hosLoop_checkDrive (n : ℕ) :
    ∀ (q : List Segment) (st : HOSState) (out : List Segment),
      (∀ s ∈ q, 0 ≤ s.estimated_drive_time) →
      0 ≤ st.hours_driving → st.hours_driving ≤ 11 →
      hosLoop n q st = some out → checkDrive st.hours_driving out = true := by
  induction n with
  | zero =>
    intro q st out hq h0 h11 heq
    cases q with
    | nil =>
      simp only [hosLoop, Option.some.injEq] at heq
      rw [← heq]
      rfl
    | cons s q' => simp [hosLoop] at heq
  | succ n ih =>
    intro q st out hq h0 h11 heq
    cases q with
    | nil =>
      simp only [hosLoop, Option.some.injEq] at heq
      rw [← heq]
      rfl
    | cons seg q' =>
      have ht : 0 ≤ seg.estimated_drive_time := hq seg (List.mem_cons_self _ _)
      have hq' : ∀ s ∈ q', 0 ≤ s.estimated_drive_time :=
        fun s hs => hq s (List.mem_cons_of_mem _ hs)
      by_cases hdrv : seg.type = "driving"
      · by_cases hbrk : 8 ≤ st.hours_since_break
        · simp only [hosLoop, if_pos hdrv, if_pos hbrk,
            Option.map_eq_some'] at heq
          obtain ⟨out', hinner, rfl⟩ := heq
          have hb1 : ¬ (breakSegmentAt seg.start_location).type = "driving" := by
            simp [breakSegmentAt]
          have hb2 : ¬ (((breakSegmentAt seg.start_location).type = "rest" ∨
              (breakSegmentAt seg.start_location).type = "break") ∧
              10 ≤ (breakSegmentAt seg.start_location).estimated_drive_time) := by
            simp [breakSegmentAt]
            norm_num
          rw [checkDrive, if_neg hb1, if_neg hb2]
          exact ih (seg :: q')
            ⟨st.hours_driving, st.hours_duty + 1/2, st.cycle_hours + 1/2, 0⟩
            out' hq h0 h11 hinner
        · by_cases hsplit : 11 - st.hours_driving < seg.estimated_drive_time
          · simp only [hosLoop, if_pos hdrv, if_neg hbrk, if_pos hsplit,
              Option.map_eq_some'] at heq
            obtain ⟨out', hinner, rfl⟩ := heq
            rw [checkDrive, if_pos (by simp [splitDrivingLeg])]
            simp only [splitDrivingLeg, Bool.and_eq_true, decide_eq_true_eq]
            refine ⟨⟨by linarith, by linarith⟩, ?_⟩
            have hr1 : ¬ (restSegmentAt (restStopName seg)).type = "driving" := by
              simp [restSegmentAt]
            have hr2 : ((restSegmentAt (restStopName seg)).type = "rest" ∨
                (restSegmentAt (restStopName seg)).type = "break") ∧
                10 ≤ (restSegmentAt (restStopName seg)).estimated_drive_time := by
              refine ⟨Or.inl rfl, ?_⟩
              norm_num [restSegmentAt]
            rw [checkDrive, if_neg hr1, if_pos hr2]
            have := ih ((splitDrivingLeg seg (11 - st.hours_driving)).2 :: q')
              ⟨0, 0, st.cycle_hours + (11 - st.hours_driving), 0⟩ out'
              (by
                intro s hs
                rcases List.mem_cons.mp hs with hs | hs
                · rw [hs]
                  show 0 ≤ seg.estimated_drive_time - (11 - st.hours_driving)
                  linarith
                · exact hq' s hs)
              (le_refl 0) (by norm_num) hinner
            exact this
          · by_cases hduty : 14 < st.hours_duty + seg.estimated_drive_time
            · simp only [hosLoop, if_pos hdrv, if_neg hbrk, if_neg hsplit,
                if_pos hduty, Option.map_eq_some'] at heq
              obtain ⟨out', hinner, rfl⟩ := heq
              have hr1 : ¬ (restSegmentAt seg.start_location).type = "driving" := by
                simp [restSegmentAt]
              have hr2 : ((restSegmentAt seg.start_location).type = "rest" ∨
                  (restSegmentAt seg.start_location).type = "break") ∧
                  10 ≤ (restSegmentAt seg.start_location).estimated_drive_time := by
                refine ⟨Or.inl rfl, ?_⟩
                norm_num [restSegmentAt]
              rw [checkDrive, if_neg hr1, if_pos hr2]
              exact ih (seg :: q') ⟨0, 0, st.cycle_hours, 0⟩ out' hq
                (le_refl 0) (by norm_num) hinner
            · simp only [hosLoop, if_pos hdrv, if_neg hbrk, if_neg hsplit,
                if_neg hduty, Option.map_eq_some'] at heq
              obtain ⟨out', hinner, rfl⟩ := heq
              push_neg at hsplit
              rw [checkDrive, if_pos hdrv]
              simp only [Bool.and_eq_true, decide_eq_true_eq]
              refine ⟨⟨by linarith, by linarith⟩, ?_⟩
              exact ih q'
                ⟨st.hours_driving + seg.estimated_drive_time,
                 st.hours_duty + seg.estimated_drive_time,
                 st.cycle_hours + seg.estimated_drive_time,
                 st.hours_since_break + seg.estimated_drive_time⟩
                out' hq' (by dsimp only; linarith)
                (by dsimp only; linarith) hinner
      · by_cases hrb : seg.type = "rest" ∨ seg.type = "break"
        · by_cases h10 : 10 ≤ seg.estimated_drive_time
          · simp only [hosLoop, if_neg hdrv, if_pos hrb, if_pos h10,
              Option.map_eq_some'] at heq
            obtain ⟨out', hinner, rfl⟩ := heq
            rw [checkDrive, if_neg hdrv, if_pos ⟨hrb, h10⟩]
            exact ih q' ⟨0, 0, st.cycle_hours, 0⟩ out' hq'
              (le_refl 0) (by norm_num) hinner
          · by_cases h05 : 1/2 ≤ seg.estimated_drive_time
            · simp only [hosLoop, if_neg hdrv, if_pos hrb, if_neg h10,
                if_pos h05, Option.map_eq_some'] at heq
              obtain ⟨out', hinner, rfl⟩ := heq
              rw [checkDrive, if_neg hdrv, if_neg (fun hc => h10 hc.2)]
              exact ih q'
                ⟨st.hours_driving, st.hours_duty + seg.estimated_drive_time,
                 st.cycle_hours + seg.estimated_drive_time, 0⟩
                out' hq' h0 h11 hinner
            · simp only [hosLoop, if_neg hdrv, if_pos hrb, if_neg h10,
                if_neg h05, Option.map_eq_some'] at heq
              obtain ⟨out', hinner, rfl⟩ := heq
              rw [checkDrive, if_neg hdrv, if_neg (fun hc => h10 hc.2)]
              exact ih q'
                ⟨st.hours_driving, st.hours_duty + seg.estimated_drive_time,
                 st.cycle_hours + seg.estimated_drive_time, st.hours_since_break⟩
                out' hq' h0 h11 hinner
        · simp only [hosLoop, if_neg hdrv, if_neg hrb,
            Option.map_eq_some'] at heq
          obtain ⟨out', hinner, rfl⟩ := heq
          rw [checkDrive, if_neg hdrv, if_neg (fun hc => hrb hc.1)]
          exact ih q'
            ⟨st.hours_driving, st.hours_duty + seg.estimated_drive_time,
             st.cycle_hours + seg.estimated_drive_time, st.hours_since_break⟩
            out' hq' h0 h11 hinner

/-- C1, amended: the 11-hour limits of the claim hold — every emitted
driving segment has duration at most 11 and never pushes cumulative driving
since the last 10-hour rest above 11 — and the break rule holds at leg
granularity: whenever a driving leg is dequeued with
`hours_since_break ≥ 8`, the very next emitted segment is a 30-minute
break.  (The 14-hour and 8-hour bounds of the original claim are only
checked per dequeued leg, and the counterexample shows a split segment can
exceed both.) -/
theorem hos_output_drive_limits :
    (∀ (segs : List Segment) (seed : ℚ) (out : List Segment),
        (∀ s ∈ segs, 0 ≤ s.estimated_drive_time) →
        apply_hos_regulations segs seed = some out →
        checkDrive 0 out = true) ∧
    (∀ (n : ℕ) (q : List Segment) (st : HOSState) (seg : Segment),
        seg.type = "driving" → 8 ≤ st.hours_since_break →
        hosLoop (n + 1) (seg :: q) st =
          Option.map (fun l => breakSegmentAt seg.start_location :: l)
            (hosLoop n (seg :: q)
              ⟨st.hours_driving, st.hours_duty + 1/2, st.cycle_hours + 1/2, 0⟩)) := by
  constructor
  · intro segs seed out hnn heq
    exact hosLoop_checkDrive (hosFuel segs) segs ⟨0, 0, seed, 0⟩ out hnn
      (le_refl 0) (by norm_num) heq
  · intro n q st seg hdrv hbrk
    simp only [hosLoop, if_pos hdrv, if_pos hbrk]

/-- C1, witness for `hos_output_drive_limits` on a one-hour leg. -/
theorem hos_output_drive_limits_witness :
    (∀ s ∈ [(⟨"driving", "A", "B", 60, 1⟩ : Segment)],
      0 ≤ s.estimated_drive_time) ∧
    checkDrive 0 [(⟨"driving", "A", "B", 60, 1⟩ : Segment)] = true :=
  ⟨by intro s hs; simp only [List.mem_singleton] at hs; rw [hs]; norm_num,
   hos_output_drive_limits.1 [⟨"driving", "A", "B", 60, 1⟩] 0 _
    (by intro s hs; simp only [List.mem_singleton] at hs; rw [hs]; norm_num)
    (by with_unfolding_all rfl)⟩

/-- Helper: the fuel-stop injector emits only non-negative durations when
its input durations are non-negative. -/
lemma add_fuel_stops_time_nonneg (segs : List Segment)
    (h : ∀ s ∈ segs, 0 ≤ s.estimated_drive_time) :
    ∀ s ∈ add_fuel_stops segs, 0 ≤ s.estimated_drive_time := by
  induction segs with
  | nil => simp [add_fuel_stops]
  | cons a rest ih =>
    intro s hs
    rw [add_fuel_stops] at hs
    rcases List.mem_append.mp hs with h1 | h2
    · unfold fuelProcessOne at h1
      by_cases hcond : a.type = "driving" ∧ 1000 < a.distance_miles
      · rw [if_pos hcond] at h1
        exact fuelLoop_time_nonneg _ _ _ s h1
      · rw [if_neg hcond] at h1
        have hsa : s = a := by simpa using h1
        rw [hsa]
        exact h a (List.mem_cons_self _ _)
    · exact ih (fun s hs => h s (List.mem_cons_of_mem _ hs)) s h2

/-- C8, amended: the planning entry point performs no input validation at
all: for any non-negative geocoded distances and ANY starting cycle-hours
value — including values outside `[0, 70]` — it processes the whole
pipeline and returns a complete plan; no `InvalidInput` rejection exists in
the source. -/
theorem plan_route_core_total (cl pl dl : String) (d1 d2 chu : ℚ)
    (h1 : 0 ≤ d1) (h2 : 0 ≤ d2) :
    (plan_route_core cl pl dl d1 d2 chu).isSome := by
  unfold plan_route_core
  apply apply_hos_isSome_of_nonneg
  apply add_fuel_stops_time_nonneg
  intro s hs
  simp only [List.mem_cons, List.not_mem_nil, or_false] at hs
  rcases hs with rfl | rfl | rfl | rfl <;> dsimp only
  · positivity
  · norm_num
  · positivity
  · norm_num

/-- C8, witness for `plan_route_core_total` with a negative starting
cycle-hours value. -/
theorem plan_route_core_total_witness :
    (0:ℚ) ≤ 60 ∧ (0:ℚ) ≤ 60 ∧
    (plan_route_core "X" "Y" "Z" 60 60 (-5)).isSome :=
  ⟨by norm_num, by norm_num,
   plan_route_core_total "X" "Y" "Z" 60 60 (-5) (by norm_num) (by norm_num)⟩

/-- Helper: a time of day is non-negative. -/
lemma timeOf_nonneg (x : ℚ) : 0 ≤ timeOf x := by
  unfold timeOf dateOf
  have h := Int.floor_le (x / 24)
  linarith

/-- Helper: a time of day is below 24 hours. -/
lemma timeOf_lt_24 (x : ℚ) : timeOf x < 24 := by
  unfold timeOf dateOf
  have h := Int.lt_floor_add_one (x / 24)
  push_cast at h ⊢
  linarith

/-- Helper: date and time of day reconstruct the instant. -/
lemma instant_timeOf (x : ℚ) : 24 * (dateOf x : ℚ) + timeOf x = x := by
  unfold timeOf
  ring

/-- Helper: the calendar date is monotone in the instant. -/
lemma dateOf_mono {x y : ℚ} (h : x ≤ y) : dateOf x ≤ dateOf y :=
  Int.floor_mono (by linarith)

/-- Helper: a nonempty prefix determines the head of an append. -/
lemma head_append_left {α : Type _} {l₁ l₂ : List α} {a : α}
    (h : l₁.head? = some a) : (l₁ ++ l₂).head? = some a := by
  cases l₁
  · simp at h
  · simpa using h

/-- Helper: a nonempty suffix determines the last entry of an append. -/
lemma getLast_append_right {α : Type _} {l₁ l₂ : List α} {a : α}
    (h : l₂.getLast? = some a) : (l₁ ++ l₂).getLast? = some a := by
  cases l₂ with
  | nil => simp at h
  | cons b t =>
    rw [List.getLast?_append_cons]
    exact h

/-- Helper: every full-day record spans 00:00:00 to 23:59:59. -/
lemma fullDays_mem (status loc : String) :
    ∀ (n : ℕ) (d : ℤ) (r : LogRecord), r ∈ fullDays d status loc n →
      r.start_time = 0 ∧ r.end_time = lastSec := by
  intro n
  induction n with
  | zero =>
    intro d r hr
    simp [fullDays] at hr
  | succ n ih =>
    intro d r hr
    rw [fullDays] at hr
    rcases List.mem_cons.mp hr with hr | hr
    · rw [hr]
      exact ⟨rfl, rfl⟩
    · exact ih (d + 1) r hr

/-- Helper: the full-day records followed by a final record starting at
midnight of the day after them form an adjacent chain, and the head of
that block is known. -/
lemma fullDays_chain (status loc : String) :
    ∀ (n : ℕ) (d : ℤ) (fin : LogRecord), fin.start_time = 0 →
      fin.date = d + n →
      List.Chain' adjacentRecords (fullDays d status loc n ++ [fin]) ∧
      (fullDays d status loc n ++ [fin]).head? =
        some (if n = 0 then fin else ⟨d, status, 0, lastSec, loc⟩) := by
  intro n
  induction n with
  | zero =>
    intro d fin h0 hd
    constructor
    · simp [fullDays]
    · simp [fullDays]
  | succ n ih =>
    intro d fin h0 hd
    have hd' : fin.date = (d + 1) + (n : ℤ) := by
      push_cast at hd
      linarith
    obtain ⟨hch, hhd⟩ := ih (d + 1) fin h0 hd'
    rw [fullDays, List.cons_append]
    constructor
    · rw [List.chain'_cons']
      refine ⟨?_, hch⟩
      intro b hb
      rw [hhd] at hb
      simp only [Option.mem_def, Option.some.injEq] at hb
      by_cases hn : n = 0
      · rw [if_pos hn] at hb
        rw [← hb]
        right
        refine ⟨?_, rfl, h0⟩
        subst hn
        push_cast at hd
        show fin.date = d + 1
        linarith
      · rw [if_neg hn] at hb
        rw [← hb]
        right
        exact ⟨rfl, rfl, rfl⟩
    · rw [List.head?_cons]
      rw [if_neg (Nat.succ_ne_zero n)]

/-- Helper: per-segment description of the partitioner's output: nonempty,
head at the current instant, last ending at the segment's end instant,
adjacent throughout, all times within a calendar day. -/
lemma logsForSegment_spec (cur : ℚ) (seg : Segment)
    (ht : 0 ≤ seg.estimated_drive_time) :
    ∃ r0 rN,
      (logsForSegment cur seg).head? = some r0 ∧
      (logsForSegment cur seg).getLast? = some rN ∧
      r0.date = dateOf cur ∧ r0.start_time = timeOf cur ∧
      rN.date = dateOf (cur + seg.estimated_drive_time) ∧
      rN.end_time = timeOf (cur + seg.estimated_drive_time) ∧
      List.Chain' adjacentRecords (logsForSegment cur seg) ∧
      ∀ r ∈ logsForSegment cur seg,
        0 ≤ r.start_time ∧ r.start_time < 24 ∧ 0 ≤ r.end_time ∧
        r.end_time < 24 := by
  by_cases hdate : dateOf cur = dateOf (cur + seg.estimated_drive_time)
  · unfold logsForSegment
    rw [if_pos hdate]
    refine ⟨⟨dateOf cur, segment_type_to_status seg.type, timeOf cur,
        timeOf (cur + seg.estimated_drive_time), seg.start_location⟩,
      ⟨dateOf cur, segment_type_to_status seg.type, timeOf cur,
        timeOf (cur + seg.estimated_drive_time), seg.start_location⟩,
      rfl, by simp, rfl, rfl, hdate, rfl, by simp, ?_⟩
    intro r hr
    simp only [List.mem_singleton] at hr
    rw [hr]
    exact ⟨timeOf_nonneg cur, timeOf_lt_24 cur, timeOf_nonneg _, timeOf_lt_24 _⟩
  · have hle : cur ≤ cur + seg.estimated_drive_time := by linarith
    have hlt : dateOf cur < dateOf (cur + seg.estimated_drive_time) :=
      lt_of_le_of_ne (dateOf_mono hle) hdate
    obtain ⟨hch, hhd⟩ := fullDays_chain (segment_type_to_status seg.type)
      seg.start_location
      ((dateOf (cur + seg.estimated_drive_time) - (dateOf cur + 1)).toNat)
      (dateOf cur + 1)
      ⟨dateOf (cur + seg.estimated_drive_time),
        segment_type_to_status seg.type, 0,
        timeOf (cur + seg.estimated_drive_time), seg.start_location⟩
      rfl
      (by
        show dateOf (cur + seg.estimated_drive_time) = dateOf cur + 1 +
          ((dateOf (cur + seg.estimated_drive_time) - (dateOf cur + 1)).toNat : ℤ)
        omega)
    unfold logsForSegment
    rw [if_neg hdate]
    refine ⟨⟨dateOf cur, segment_type_to_status seg.type, timeOf cur, lastSec,
        seg.start_location⟩,
      ⟨dateOf (cur + seg.estimated_drive_time),
        segment_type_to_status seg.type, 0,
        timeOf (cur + seg.estimated_drive_time), seg.start_location⟩,
      rfl, ?_, rfl, rfl, rfl, rfl, ?_, ?_⟩
    · rw [← List.cons_append]
      exact List.getLast?_concat _
    · rw [List.chain'_cons']
      refine ⟨?_, hch⟩
      intro b hb
      rw [hhd] at hb
      simp only [Option.mem_def, Option.some.injEq] at hb
      by_cases hn0 : (dateOf (cur + seg.estimated_drive_time) -
          (dateOf cur + 1)).toNat = 0
      · rw [if_pos hn0] at hb
        rw [← hb]
        right
        refine ⟨?_, rfl, rfl⟩
        show dateOf (cur + seg.estimated_drive_time) = dateOf cur + 1
        omega
      · rw [if_neg hn0] at hb
        rw [← hb]
        right
        exact ⟨rfl, rfl, rfl⟩
    · intro r hr
      rcases List.mem_cons.mp hr with hr | hr
      · rw [hr]
        refine ⟨timeOf_nonneg cur, timeOf_lt_24 cur, ?_, ?_⟩ <;>
          norm_num [lastSec]
      · rcases List.mem_append.mp hr with hr | hr
        · have hm := fullDays_mem _ _ _ _ _ hr
          refine ⟨by rw [hm.1], by rw [hm.1]; norm_num,
            by rw [hm.2]; norm_num [lastSec], by rw [hm.2]; norm_num [lastSec]⟩
        · simp only [List.mem_singleton] at hr
          rw [hr]
          exact ⟨by norm_num, by norm_num, timeOf_nonneg _, timeOf_lt_24 _⟩

/-- Helper: the whole-trip version of `logsForSegment_spec`, by induction
over the segment list, threading the running instant. -/
lemma genLogsFrom_spec :
    ∀ (segs : List Segment) (cur : ℚ), segs ≠ [] →
      (∀ s ∈ segs, 0 ≤ s.estimated_drive_time) →
      ∃ r0 rN,
        (genLogsFrom cur segs).head? = some r0 ∧
        (genLogsFrom cur segs).getLast? = some rN ∧
        r0.date = dateOf cur ∧ r0.start_time = timeOf cur ∧
        rN.date = dateOf (cur + (segs.map Segment.estimated_drive_time).sum) ∧
        rN.end_time = timeOf (cur + (segs.map Segment.estimated_drive_time).sum) ∧
        List.Chain' adjacentRecords (genLogsFrom cur segs) ∧
        ∀ r ∈ genLogsFrom cur segs, 0 ≤ r.start_time ∧ r.start_time < 24 ∧
          0 ≤ r.end_time ∧ r.end_time < 24 := by
  intro segs
  induction segs with
  | nil =>
    intro cur hne
    exact absurd rfl hne
  | cons s rest ih =>
    intro cur _ hnn
    have hts : 0 ≤ s.estimated_drive_time := hnn s (List.mem_cons_self _ _)
    obtain ⟨a0, aN, ha1, ha2, ha3, ha4, ha5, ha6, ha7, ha8⟩ :=
      logsForSegment_spec cur s hts
    by_cases hrest : rest = []
    · subst hrest
      refine ⟨a0, aN, ?_, ?_, ha3, ha4, ?_, ?_, ?_, ?_⟩
      · simpa only [genLogsFrom, List.append_nil] using ha1
      · simpa only [genLogsFrom, List.append_nil] using ha2
      · simpa only [List.map_cons, List.map_nil, List.sum_cons, List.sum_nil,
          add_zero] using ha5
      · simpa only [List.map_cons, List.map_nil, List.sum_cons, List.sum_nil,
          add_zero] using ha6
      · simpa only [genLogsFrom, List.append_nil] using ha7
      · simpa only [genLogsFrom, List.append_nil] using ha8
    · have hnn' : ∀ x ∈ rest, 0 ≤ x.estimated_drive_time :=
        fun x hx => hnn x (List.mem_cons_of_mem _ hx)
      obtain ⟨b0, bN, hb1, hb2, hb3, hb4, hb5, hb6, hb7, hb8⟩ :=
        ih (cur + s.estimated_drive_time) hrest hnn'
      have hsum : cur + (List.map Segment.estimated_drive_time (s :: rest)).sum =
          cur + s.estimated_drive_time +
            (List.map Segment.estimated_drive_time rest).sum := by
        simp only [List.map_cons, List.sum_cons]
        ring
      refine ⟨a0, bN, ?_, ?_, ha3, ha4, ?_, ?_, ?_, ?_⟩
      · rw [genLogsFrom]
        exact head_append_left ha1
      · rw [genLogsFrom]
        exact getLast_append_right hb2
      · rw [hsum]
        exact hb5
      · rw [hsum]
        exact hb6
      · rw [genLogsFrom]
        apply List.Chain'.append ha7 hb7
        intro x hx y hy
        rw [ha2] at hx
        rw [hb1] at hy
        simp only [Option.mem_def, Option.some.injEq] at hx hy
        rw [← hx, ← hy]
        left
        constructor
        · rw [hb3, ha5]
        · rw [hb4, ha6]
      · intro r hr
        rw [genLogsFrom] at hr
        rcases List.mem_append.mp hr with hr | hr
        · exact ha8 r hr
        · exact hb8 r hr

/-- C2: on any nonempty segment sequence with non-negative durations, the
emitted log records tile the trip timeline: the list is nonempty, each
record's times lie within a calendar day, consecutive records either share
their boundary instant or meet across a 23:59:59/00:00:00 day boundary
(no gap, no overlap), and the last record ends exactly at the
hour-truncated start instant plus the sum of all segment durations.  The
records are emitted in (date, start_time) order, so this suffices for the
ordered reading of the claim. -/
theorem generate_logs_tiling (segs : List Segment) (start : ℚ)
    (hne : segs ≠ []) (ht : ∀ s ∈ segs, 0 ≤ s.estimated_drive_time) :
    generate_logs segs start ≠ [] ∧
    List.Chain' adjacentRecords (generate_logs segs start) ∧
    (∀ r ∈ generate_logs segs start,
      0 ≤ r.start_time ∧ r.start_time < 24 ∧ 0 ≤ r.end_time ∧
      r.end_time < 24) ∧
    ∃ rN, (generate_logs segs start).getLast? = some rN ∧
      endInstant rN = (⌊start⌋ : ℚ) +
        (segs.map Segment.estimated_drive_time).sum := by
  obtain ⟨r0, rN, h1, h2, h3, h4, h5, h6, h7, h8⟩ :=
    genLogsFrom_spec segs ((⌊start⌋ : ℤ) : ℚ) hne ht
  unfold generate_logs
  refine ⟨?_, h7, h8, rN, h2, ?_⟩
  · intro hnil
    rw [hnil] at h1
    simp at h1
  · unfold endInstant
    rw [h5, h6]
    exact instant_timeOf _

/-- C2, witness for `generate_logs_tiling`: the spec scenario, one 4-hour
segment starting at 22:00 of day 0. -/
theorem generate_logs_tiling_witness :
    ([(⟨"driving", "A", "B", 240, 4⟩ : Segment)] ≠ [] ∧
      ∀ s ∈ [(⟨"driving", "A", "B", 240, 4⟩ : Segment)],
        0 ≤ s.estimated_drive_time) ∧
    (generate_logs [⟨"driving", "A", "B", 240, 4⟩] 22 ≠ [] ∧
      List.Chain' adjacentRecords (generate_logs [⟨"driving", "A", "B", 240, 4⟩] 22) ∧
      (∀ r ∈ generate_logs [⟨"driving", "A", "B", 240, 4⟩] 22,
        0 ≤ r.start_time ∧ r.start_time < 24 ∧ 0 ≤ r.end_time ∧
        r.end_time < 24) ∧
      ∃ rN, (generate_logs [⟨"driving", "A", "B", 240, 4⟩] 22).getLast? = some rN ∧
        endInstant rN = (⌊(22:ℚ)⌋ : ℚ) +
          ([(⟨"driving", "A", "B", 240, 4⟩ : Segment)].map
            Segment.estimated_drive_time).sum) :=
  ⟨⟨by simp, by intro s hs; simp only [List.mem_singleton] at hs; rw [hs]; norm_num⟩,
   generate_logs_tiling [⟨"driving", "A", "B", 240, 4⟩] 22 (by simp)
    (by intro s hs; simp only [List.mem_singleton] at hs; rw [hs]; norm_num)⟩

/-- Helper: the last full-day record of a nonempty block is dated `n` days
after the first. -/
lemma fullDays_getLast (status loc : String) :
    ∀ (n : ℕ) (d : ℤ), (fullDays d status loc (n + 1)).getLast? =
      some ⟨d + n, status, 0, lastSec, loc⟩ := by
  intro n
  induction n with
  | zero =>
    intro d
    rw [fullDays, fullDays]
    simp
  | succ n ih =>
    intro d
    rw [fullDays]
    have hcons : fullDays (d + 1) status loc (n + 1) =
        ⟨d + 1, status, 0, lastSec, loc⟩ :: fullDays (d + 1 + 1) status loc n := by
      rw [fullDays]
    rw [hcons, List.getLast?_cons_cons, ← hcons, ih]
    congr 2
    push_cast
    ring

/-- C10, amended: every segment of positive duration whose end instant falls
exactly on a midnight goes through the midnight-crossing branch: its last
emitted record is the zero-duration record `00:00:00-00:00:00` dated the
end date `k`, and the record just before it ends at 23:59:59 of date
`k - 1`.  (The counterexample shows the restriction to positive durations
is necessary: a zero-duration segment sitting exactly on midnight takes the
same-date branch.) -/
theorem midnight_end_crossing (cur : ℚ) (seg : Segment) (k : ℤ)
    (hk : cur + seg.estimated_drive_time = 24 * k)
    (hlt : cur < cur + seg.estimated_drive_time) :
    ∃ pre r,
      logsForSegment cur seg =
        pre ++ [⟨k, segment_type_to_status seg.type, 0, 0, seg.start_location⟩] ∧
      pre ≠ [] ∧
      pre.getLast? = some r ∧ r.end_time = lastSec ∧ r.date = k - 1 := by
  have hde : dateOf (cur + seg.estimated_drive_time) = k := by
    rw [hk]
    unfold dateOf
    rw [mul_div_cancel_left₀ _ (by norm_num : (24:ℚ) ≠ 0)]
    exact Int.floor_intCast k
  have htime : timeOf (cur + seg.estimated_drive_time) = 0 := by
    unfold timeOf
    rw [hde, hk]
    ring
  have hdc : dateOf cur < k := by
    unfold dateOf
    rw [Int.floor_lt]
    rw [div_lt_iff (by norm_num : (0:ℚ) < 24)]
    linarith
  have hdate : ¬ dateOf cur = dateOf (cur + seg.estimated_drive_time) := by
    rw [hde]
    omega
  have hshape : logsForSegment cur seg =
      (⟨dateOf cur, segment_type_to_status seg.type, timeOf cur, lastSec,
          seg.start_location⟩ ::
        fullDays (dateOf cur + 1) (segment_type_to_status seg.type)
          seg.start_location (k - (dateOf cur + 1)).toNat) ++
      [⟨k, segment_type_to_status seg.type, 0, 0, seg.start_location⟩] := by
    unfold logsForSegment
    rw [if_neg hdate, hde, htime, List.cons_append]
  cases hn : (k - (dateOf cur + 1)).toNat with
  | zero =>
    refine ⟨[⟨dateOf cur, segment_type_to_status seg.type, timeOf cur, lastSec,
        seg.start_location⟩],
      ⟨dateOf cur, segment_type_to_status seg.type, timeOf cur, lastSec,
        seg.start_location⟩, ?_, by simp, by simp, rfl, ?_⟩
    · rw [hshape, hn, fullDays]
    · show dateOf cur = k - 1
      omega
  | succ m =>
    refine ⟨⟨dateOf cur, segment_type_to_status seg.type, timeOf cur, lastSec,
        seg.start_location⟩ ::
      fullDays (dateOf cur + 1) (segment_type_to_status seg.type)
        seg.start_location (m + 1),
      ⟨dateOf cur + 1 + (m : ℤ), segment_type_to_status seg.type, 0, lastSec,
        seg.start_location⟩, ?_, by simp, ?_, rfl, ?_⟩
    · rw [hshape, hn]
    · rw [show (⟨dateOf cur, segment_type_to_status seg.type, timeOf cur,
          lastSec, seg.start_location⟩ ::
          fullDays (dateOf cur + 1) (segment_type_to_status seg.type)
            seg.start_location (m + 1)) =
        [⟨dateOf cur, segment_type_to_status seg.type, timeOf cur, lastSec,
          seg.start_location⟩] ++
          fullDays (dateOf cur + 1) (segment_type_to_status seg.type)
            seg.start_location (m + 1) from rfl]
      apply getLast_append_right
      exact fullDays_getLast (segment_type_to_status seg.type)
        seg.start_location m (dateOf cur + 1)
    · show dateOf cur + 1 + (m : ℤ) = k - 1
      omega

/-- C10, witness for `midnight_end_crossing`: a 10-hour rest starting at
14:00 of day 0 ends exactly at midnight of day 1. -/
theorem midnight_end_crossing_witness :
    ((14:ℚ) + (⟨"rest", "A", "A", 0, 10⟩ : Segment).estimated_drive_time =
      24 * (1:ℤ) ∧
     (14:ℚ) < 14 + (⟨"rest", "A", "A", 0, 10⟩ : Segment).estimated_drive_time) ∧
    ∃ pre r,
      logsForSegment 14 ⟨"rest", "A", "A", 0, 10⟩ =
        pre ++ [⟨1, segment_type_to_status
          (⟨"rest", "A", "A", 0, 10⟩ : Segment).type, 0, 0,
          (⟨"rest", "A", "A", 0, 10⟩ : Segment).start_location⟩] ∧
      pre ≠ [] ∧
      pre.getLast? = some r ∧ r.end_time = lastSec ∧ r.date = 1 - 1 :=
  ⟨⟨by norm_num, by norm_num⟩,
   midnight_end_crossing 14 ⟨"rest", "A", "A", 0, 10⟩ 1 (by norm_num)
    (by norm_num)⟩

end EldLog

